import Mathlib

/-!
# BetTrack Buddy — PlayerLedger verification

Shallow embedding of the player/earnings core of
`src/components/BettingDashboard.tsx` (the `BettingDashboard` React
component): the data model (`Player`, `Earning`), the two mutations
(`handleAddPlayer`, `handleAddEarning`), the derived aggregate stats and the
multi-player chart table (`generateAllPlayersData`).

Modelling conventions:
* JavaScript numbers are idealised as exact rationals extended with the
  signed infinities and NaN (`JsVal`); decimal literals and additions are
  exact rather than IEEE-754-rounded.  None of the verified properties
  depends on rounding of doubles.
* `parseFloat` is modelled after the ECMAScript algorithm: skip leading
  whitespace, then read the longest prefix that is a signed decimal literal
  (digits, optional fraction, optional exponent) or a signed `Infinity`;
  if there is none the result is NaN.
* `toLowerCase`/`trim` act characterwise (ASCII case mapping, the common
  JS whitespace set) — all names exercised here are ASCII.
* React state updates are modelled as a function from the pre-state and the
  input-field contents to a validation outcome and the post-state; the
  non-deterministic `new Date().toLocaleDateString()` is an explicit
  `today` argument.
-/

/-- A JavaScript number: an exact rational, a signed infinity, or NaN. -/
inductive JsVal where
  | nan : JsVal
  | posInf : JsVal
  | negInf : JsVal
  | fin : ℚ → JsVal
  deriving DecidableEq

/-- JavaScript `+` on numbers (exact on finite values). -/
def JsVal.add : JsVal → JsVal → JsVal
  | .nan, _ => .nan
  | _, .nan => .nan
  | .posInf, .negInf => .nan
  | .negInf, .posInf => .nan
  | .posInf, _ => .posInf
  | _, .posInf => .posInf
  | .negInf, _ => .negInf
  | _, .negInf => .negInf
  | .fin a, .fin b => .fin (a + b)

/-- JavaScript `x > 0` (false on NaN). -/
def JsVal.gtZero : JsVal → Bool
  | .nan => false
  | .posInf => true
  | .negInf => false
  | .fin q => 0 < q

/-- The whitespace characters JS `trim`/`parseFloat` skip (ASCII whitespace
plus no-break space and the BOM; the full Unicode set is not exercised). -/
def isJsWs (c : Char) : Bool :=
  c == ' ' || c == '\t' || c == '\n' || c == '\r' ||
  c.toNat == 11 || c.toNat == 12 || c.toNat == 160 || c.toNat == 65279

/-- JS `String.prototype.trim`: strip whitespace from both ends. -/
def jsTrim (s : String) : String :=
  ⟨((s.data.dropWhile isJsWs).reverse.dropWhile isJsWs).reverse⟩

/-- JS `String.prototype.toLowerCase`, characterwise (ASCII). -/
def jsToLower (s : String) : String :=
  ⟨s.data.map Char.toLower⟩

/-- Value of a digit string (most significant first). -/
def digitsVal (cs : List Char) : ℕ :=
  cs.foldl (fun n c => 10 * n + (c.toNat - 48)) 0

/-- Does `pat` occur literally at the start of `cs`? -/
def startsWithChars : List Char → List Char → Bool
  | [], _ => true
  | _ :: _, [] => false
  | p :: ps, c :: cs => p == c && startsWithChars ps cs

/-- Longest-prefix unsigned decimal literal, per `parseFloat`:
`DecimalDigits . DecimalDigits? ExponentPart?` or `. DecimalDigits
ExponentPart?`; `none` when no prefix of `cs` is such a literal. -/
def parseDecimal (cs : List Char) : Option ℚ :=
  let ip := cs.takeWhile Char.isDigit
  let r1 := cs.dropWhile Char.isDigit
  let fr : List Char × List Char :=
    match r1 with
    | '.' :: rest => (rest.takeWhile Char.isDigit, rest.dropWhile Char.isDigit)
    | _ => ([], r1)
  let fp := fr.1
  let r2 := fr.2
  if ip.isEmpty && fp.isEmpty then none
  else
    let mant : ℚ := (digitsVal ip : ℚ) + (digitsVal fp : ℚ) / (10 : ℚ) ^ fp.length
    let e : ℤ :=
      match r2 with
      | c :: rest =>
        if c == 'e' || c == 'E' then
          match rest with
          | '+' :: rest2 =>
            let ds := rest2.takeWhile Char.isDigit
            if ds.isEmpty then 0 else (digitsVal ds : ℤ)
          | '-' :: rest2 =>
            let ds := rest2.takeWhile Char.isDigit
            if ds.isEmpty then 0 else -(digitsVal ds : ℤ)
          | _ =>
            let ds := rest.takeWhile Char.isDigit
            if ds.isEmpty then 0 else (digitsVal ds : ℤ)
        else 0
      | [] => 0
    some (mant * (10 : ℚ) ^ e)

/-- ECMAScript `parseFloat`: skip leading whitespace, read an optional sign,
then the longest `Infinity`-or-decimal literal prefix; NaN when none. -/
def parseFloat (s : String) : JsVal :=
  let cs := s.data.dropWhile isJsWs
  let sb : Bool × List Char :=
    match cs with
    | '+' :: rest => (false, rest)
    | '-' :: rest => (true, rest)
    | _ => (false, cs)
  let neg := sb.1
  let body := sb.2
  if startsWithChars "Infinity".data body then
    if neg then .negInf else .posInf
  else
    match parseDecimal body with
    | none => .nan
    | some q => .fin (if neg then -q else q)

/-- JS `Math.round`: nearest integer, ties toward positive infinity. -/
def jsRound (q : ℚ) : ℤ :=
  Rat.floor (q + 1 / 2)

/-- One recorded earning (source interface `Earning`; the source field
`match` is a Lean keyword and is embedded as `matchLabel`). -/
structure Earning where
  matchLabel : String
  amount : JsVal
  total : JsVal
  date : String
  deriving DecidableEq

/-- One tracked player (source interface `Player`). -/
structure Player where
  name : String
  earnings : List Earning
  totalEarnings : JsVal
  deriving DecidableEq

/-- The component state the ledger claims are about: the roster and the
selected-player reference (`useState` hooks `players`, `selectedPlayer`). -/
structure State where
  players : List Player
  selectedPlayer : Option Player
  deriving DecidableEq

/-- The validation rejections of the two mutations (§7 of the spec). -/
inductive VErr where
  | emptyName : VErr
  | duplicateName : VErr
  | missingInput : VErr
  | notANumber : VErr
  deriving DecidableEq

/-- `handleAddPlayer`: reject a blank (trimmed) name, reject a name already
present under case-insensitive comparison of the *untrimmed* input, else
append a fresh player with the *trimmed* name, no earnings and zero total. -/
def handleAddPlayer (s : State) (newPlayer : String) : Option VErr × State :=
  if jsTrim newPlayer = "" then (some .emptyName, s)
  else if s.players.any fun p => jsToLower p.name == jsToLower newPlayer then
    (some .duplicateName, s)
  else
    (none, { s with players := s.players ++ [⟨jsTrim newPlayer, [], .fin 0⟩] })

/-- The per-player update `handleAddEarning` maps over the matching player:
append `Earning{match: "Ticket " + (earnings.length + 1), amount,
total: totalEarnings + amount, date}` and set the new running total. -/
def applyEarning (amount : JsVal) (today : String) (player : Player) : Player :=
  let newTotal := player.totalEarnings.add amount
  { player with
      earnings := player.earnings ++
        [⟨"Ticket " ++ toString (player.earnings.length + 1), amount, newTotal, today⟩],
      totalEarnings := newTotal }

/-- The `players.map` body of `handleAddEarning`: update every player whose
name equals the selected player's name, leave the rest untouched. -/
def updatePlayers (selName : String) (amount : JsVal) (today : String)
    (players : List Player) : List Player :=
  players.map fun player =>
    if player.name == selName then applyEarning amount today player else player

/-- `handleAddEarning`: reject an empty amount field or a missing selection,
reject an amount `parseFloat` turns into NaN, else rebuild the roster via
`updatePlayers` and re-resolve the selection by name in the rebuilt list. -/
def handleAddEarning (s : State) (newEarning today : String) : Option VErr × State :=
  if newEarning = "" then (some .missingInput, s)
  else
    match s.selectedPlayer with
    | none => (some .missingInput, s)
    | some sel =>
      let amount := parseFloat newEarning
      if amount = .nan then (some .notANumber, s)
      else
        let updatedPlayers := updatePlayers sel.name amount today s.players
        (none, ⟨updatedPlayers, updatedPlayers.find? fun p => p.name == sel.name⟩)

/-- The dashboard's aggregate numbers (source locals `totalPlayers`,
`totalWinnings`, `profitablePlayers` and the rendered win-rate expression
`totalPlayers > 0 ? Math.round((profitablePlayers / totalPlayers) * 100) : 0`). -/
structure Stats where
  totalPlayers : ℕ
  totalWinnings : JsVal
  profitablePlayers : ℕ
  winRate : ℤ
  deriving DecidableEq

/-- The derived aggregate stats, straight from the source expressions. -/
def aggregateStats (players : List Player) : Stats :=
  let totalPlayers := players.length
  let totalWinnings := players.foldl (fun sum p => sum.add p.totalEarnings) (.fin 0)
  let profitablePlayers := (players.filter fun p => p.totalEarnings.gtZero).length
  let winRate : ℤ :=
    if totalPlayers > 0 then
      jsRound ((profitablePlayers : ℚ) / (totalPlayers : ℚ) * 100)
    else 0
  ⟨totalPlayers, totalWinnings, profitablePlayers, winRate⟩

/-- JS `Set.prototype.add` on a list kept in insertion order. -/
def insertLabel (acc : List String) (x : String) : List String :=
  if x ∈ acc then acc else acc ++ [x]

/-- The `allMatches` set of `generateAllPlayersData`: every `match` label of
every player's earnings, first occurrences in iteration order. -/
def allMatches (players : List Player) : List String :=
  (players.flatMap fun p => p.earnings.map Earning.matchLabel).foldl insertLabel []

/-- Lexicographic comparison of character lists by code point (the order the
default `Array.prototype.sort` string comparator induces; all labels here are
ASCII, where code units and code points agree). -/
def lexLe : List Char → List Char → Bool
  | [], _ => true
  | _ :: _, [] => false
  | a :: as, b :: bs => if a < b then true else if b < a then false else lexLe as bs

/-- Lexicographic `≤` on strings as an executable comparison. -/
def strLe (a b : String) : Bool := lexLe a.data b.data

/-- One chart row: the `match` label plus, per player name, either that
player's `total` at the label or `none` (the source's `null`, "no data"). -/
structure DataPoint where
  matchLabel : String
  values : List (String × Option JsVal)
  deriving DecidableEq

/-- `generateAllPlayersData`: sort the distinct labels with the default
(lexicographic) `Array.prototype.sort`, then for each label record each
player's `total` at the first earning carrying it, or `null`. -/
def generateAllPlayersData (players : List Player) : List DataPoint :=
  let sortedMatches := List.insertionSort (fun a b => strLe a b = true) (allMatches players)
  sortedMatches.map fun m =>
    ⟨m, players.map fun player =>
        (player.name, (player.earnings.find? fun e => e.matchLabel == m).map Earning.total)⟩

/-- The states the UI can reach: the empty dashboard, any mutation outcome,
and selecting (a click on a roster entry) or deselecting a player. -/
inductive Reachable : State → Prop where
  | init : Reachable ⟨[], none⟩
  | addPlayer (s : State) (inp : String) :
      Reachable s → Reachable (handleAddPlayer s inp).2
  | addEarning (s : State) (raw today : String) :
      Reachable s → Reachable (handleAddEarning s raw today).2
  | select (s : State) (p : Player) :
      Reachable s → p ∈ s.players → Reachable ⟨s.players, some p⟩
  | deselect (s : State) :
      Reachable s → Reachable ⟨s.players, none⟩

/-- Running total of `amount`s starting from `t`, in JS addition order. -/
def sumAmountsFrom (t : JsVal) (l : List Earning) : JsVal :=
  l.foldl (fun acc e => acc.add e.amount) t

/-- The sum of the `amount` fields of a list of earnings. -/
def sumAmounts (l : List Earning) : JsVal :=
  sumAmountsFrom (.fin 0) l

/-- Each entry's `total` is the previous running total plus its `amount`,
chaining from `t`. -/
def totalsAligned : JsVal → List Earning → Prop
  | _, [] => True
  | t, e :: rest => e.total = t.add e.amount ∧ totalsAligned (t.add e.amount) rest

/-- The per-player ledger invariant (§3 of the spec). -/
def playerInv (p : Player) : Prop :=
  totalsAligned (.fin 0) p.earnings ∧ p.totalEarnings = sumAmounts p.earnings

/-- Every player of the state satisfies the ledger invariant. -/
def stateInv (s : State) : Prop :=
  ∀ p ∈ s.players, playerInv p

/-- A fresh one-player roster used by the concrete scenarios. -/
def alice0 : Player := ⟨"Alice", [], .fin 0⟩

/-- A second fresh player for frame-property scenarios. -/
def bob0 : Player := ⟨"Bob", [], .fin 0⟩

/-- The state holding exactly the fresh player Alice, selected. -/
def demoAlice : State := ⟨[alice0], some alice0⟩

/-- Alice and Bob, with Alice selected. -/
def demoAB : State := ⟨[alice0, bob0], some alice0⟩

/-- `demoAlice` after recording the earning `50`. -/
def demoAlice1 : State := (handleAddEarning demoAlice "50" "d1").2

/-- `demoAlice1` after recording the earning `-20`. -/
def demoAlice2 : State := (handleAddEarning demoAlice1 "-20" "d2").2

/-- Three players, exactly one of them profitable. -/
def demo3 : List Player :=
  [⟨"A", [], .fin 10⟩, ⟨"B", [], .fin (-5)⟩, ⟨"C", [], .fin 0⟩]

/-- The empty dashboard after `addPlayer "Alice"`, with Alice then selected
(the roster click). -/
def demoSel : State :=
  ⟨(handleAddPlayer ⟨[], none⟩ "Alice").2.players, some alice0⟩

/-- `demoSel` after recording the earning `50`. -/
def demoAfter : State := (handleAddEarning demoSel "50" "d").2

/-- Alice's record after her first earning of `50`. -/
def alice1 : Player := ⟨"Alice", [⟨"Ticket 1", .fin 50, .fin 50, "d"⟩], .fin 50⟩

section Proofs

attribute [local semireducible] Rat.add Rat.sub Rat.mul Rat.inv Rat.ofScientific

/-- `lexLe` decides the lexicographic list order (`≤` as not-greater-than). -/
theorem lexLe_iff (as bs : List Char) : lexLe as bs = true ↔ ¬ bs < as := by
  induction as generalizing bs with
  | nil =>
    cases bs with
    | nil =>
      simp only [lexLe, true_iff]
      intro h
      cases h
    | cons b bs =>
      simp only [lexLe, true_iff]
      intro h
      cases h
  | cons a as ih =>
    cases bs with
    | nil =>
      simp only [lexLe]
      constructor
      · intro h
        exact absurd h (by simp)
      · intro h
        exact absurd List.Lex.nil h
    | cons b bs =>
      simp only [lexLe]
      by_cases hab : a < b
      · simp only [if_pos hab, true_iff]
        intro h
        cases h with
        | cons h' => exact lt_irrefl a hab
        | rel h' => exact asymm hab h'
      · by_cases hba : b < a
        · simp only [if_neg hab, if_pos hba]
          constructor
          · intro h
            exact absurd h (by simp)
          · intro h
            exact absurd (List.Lex.rel hba) h
        · have hae : a = b := le_antisymm (not_lt.1 hba) (not_lt.1 hab)
          subst hae
          simp only [if_neg hab, if_neg hba, ih bs]
          constructor
          · intro h h'
            cases h' with
            | cons h'' => exact h h''
            | rel h'' => exact hab h''
          · intro h h'
            exact h (List.Lex.cons h')

/-- `strLe` decides Mathlib's lexicographic string order. -/
theorem strLe_iff_le (a b : String) : strLe a b = true ↔ a ≤ b := by
  rw [strLe, lexLe_iff]
  show (¬ b.data < a.data) ↔ ¬ b < a
  exact not_congr String.lt_iff_toList_lt.symm

instance : IsTotal String fun a b => strLe a b = true := by
  constructor
  intro a b
  rcases le_total a b with h | h
  · exact Or.inl ((strLe_iff_le a b).2 h)
  · exact Or.inr ((strLe_iff_le b a).2 h)

instance : IsTrans String fun a b => strLe a b = true := by
  constructor
  intro a b c hab hbc
  exact (strLe_iff_le a c).2 (le_trans ((strLe_iff_le a b).1 hab) ((strLe_iff_le b c).1 hbc))

/-- Folding one more earning onto a running total. -/
theorem sumAmountsFrom_append (t : JsVal) (l : List Earning) (e : Earning) :
    sumAmountsFrom t (l ++ [e]) = (sumAmountsFrom t l).add e.amount := by
  simp [sumAmountsFrom, List.foldl_append]

/-- The chained-totals predicate is preserved when the appended entry's
`total` is the running total so far plus its own `amount`. -/
theorem totalsAligned_append (t : JsVal) (l : List Earning) (e : Earning)
    (h : totalsAligned t l) (he : e.total = (sumAmountsFrom t l).add e.amount) :
    totalsAligned t (l ++ [e]) := by
  induction l generalizing t with
  | nil =>
    exact ⟨he, trivial⟩
  | cons x xs ih =>
    obtain ⟨hx, hxs⟩ := h
    refine ⟨hx, ih _ hxs ?_⟩
    simpa [sumAmountsFrom] using he

/-- From chained totals, each entry's `total` is the prefix sum up to and
including that entry. -/
theorem totalsAligned_get (t : JsVal) (l : List Earning) (h : totalsAligned t l) :
    ∀ i (hi : i < l.length),
      (l.get ⟨i, hi⟩).total = sumAmountsFrom t (l.take (i + 1)) := by
  induction l generalizing t with
  | nil =>
    intro i hi
    exact absurd hi (Nat.not_lt_zero i)
  | cons x xs ih =>
    obtain ⟨hx, hxs⟩ := h
    intro i hi
    cases i with
    | zero =>
      simpa [sumAmountsFrom] using hx
    | succ j =>
      simpa [sumAmountsFrom] using ih _ hxs j (Nat.lt_of_succ_lt_succ hi)

/-- `applyEarning` keeps a player's name. -/
theorem applyEarning_name (a : JsVal) (d : String) (p : Player) :
    (applyEarning a d p).name = p.name := rfl

/-- Appending one earning extends the sum by its `amount`. -/
theorem sumAmounts_append (l : List Earning) (e : Earning) :
    sumAmounts (l ++ [e]) = (sumAmounts l).add e.amount :=
  sumAmountsFrom_append _ _ _

/-- `applyEarning` preserves the per-player ledger invariant. -/
theorem playerInv_applyEarning (a : JsVal) (d : String) (p : Player)
    (h : playerInv p) : playerInv (applyEarning a d p) := by
  obtain ⟨hal, hsum⟩ := h
  constructor
  · refine totalsAligned_append _ _ _ hal ?_
    show p.totalEarnings.add a = (sumAmountsFrom (JsVal.fin 0) p.earnings).add a
    rw [hsum]
    rfl
  · show p.totalEarnings.add a = sumAmounts (p.earnings ++ [_])
    rw [sumAmounts_append, ← hsum]

/-- `handleAddPlayer` either rejects (roster untouched) or appends exactly
the fresh trimmed-name player. -/
theorem handleAddPlayer_players (s : State) (inp : String) :
    (handleAddPlayer s inp).2.players = s.players ∨
    (handleAddPlayer s inp).2.players = s.players ++ [⟨jsTrim inp, [], .fin 0⟩] := by
  unfold handleAddPlayer
  split_ifs
  · exact Or.inl rfl
  · exact Or.inl rfl
  · exact Or.inr rfl

/-- `handleAddEarning` either rejects (state untouched) or rebuilds the
roster via `updatePlayers` for the selected name. -/
theorem handleAddEarning_cases (s : State) (raw today : String) :
    (handleAddEarning s raw today).2 = s ∨
    ∃ sel, s.selectedPlayer = some sel ∧
      (handleAddEarning s raw today).2.players =
        updatePlayers sel.name (parseFloat raw) today s.players := by
  unfold handleAddEarning
  by_cases h1 : raw = ""
  · simp [h1]
  · rw [if_neg h1]
    cases hsel : s.selectedPlayer with
    | none => exact Or.inl rfl
    | some sel =>
      by_cases h2 : parseFloat raw = JsVal.nan
      · simp only [h2, if_pos rfl]
        exact Or.inl rfl
      · simp only [if_neg h2]
        exact Or.inr ⟨sel, rfl, rfl⟩

/-- `updatePlayers` preserves the ledger invariant of every player. -/
theorem stateInv_updatePlayers (nm : String) (a : JsVal) (d : String)
    (l : List Player) (h : ∀ p ∈ l, playerInv p) :
    ∀ p ∈ updatePlayers nm a d l, playerInv p := by
  intro p hp
  rw [updatePlayers] at hp
  obtain ⟨q, hq, rfl⟩ := List.mem_map.1 hp
  by_cases hqe : (q.name == nm) = true
  · rw [if_pos hqe]
    exact playerInv_applyEarning _ _ _ (h q hq)
  · rw [if_neg hqe]
    exact h q hq

/-- Every reachable state satisfies the per-player ledger invariant. -/
theorem reachable_stateInv (s : State) (h : Reachable s) : stateInv s := by
  induction h with
  | init =>
    intro p hp
    cases hp
  | addPlayer s inp _ ih =>
    intro p hp
    rcases handleAddPlayer_players s inp with h' | h'
    · rw [h'] at hp
      exact ih p hp
    · rw [h'] at hp
      rcases List.mem_append.1 hp with hp' | hp'
      · exact ih p hp'
      · rw [List.mem_singleton.1 hp']
        exact ⟨trivial, rfl⟩
  | addEarning s raw today _ ih =>
    rcases handleAddEarning_cases s raw today with h' | ⟨sel, _, h'⟩
    · intro p hp
      rw [h'] at hp
      exact ih p hp
    · intro p hp
      rw [h'] at hp
      exact stateInv_updatePlayers _ _ _ _ ih p hp
  | select s p _ hmem ih =>
    intro q hq
    exact ih q hq
  | deselect s _ ih =>
    intro q hq
    exact ih q hq

/-- C1: in every reachable state, every player's `totalEarnings` is the sum
of the `amount`s of that player's earnings, and each earning's `total` is
the prefix sum of the `amount`s up to and including that entry. -/
theorem ledger_totals_invariant (s : State) (hs : Reachable s) :
    ∀ p ∈ s.players,
      p.totalEarnings = sumAmounts p.earnings ∧
      ∀ i (hi : i < p.earnings.length),
        (p.earnings.get ⟨i, hi⟩).total = sumAmounts (p.earnings.take (i + 1)) := by
  intro p hp
  obtain ⟨hal, hsum⟩ := reachable_stateInv s hs p hp
  exact ⟨hsum, totalsAligned_get _ _ hal⟩

/-- C1 witness: the invariant, instantiated at the concrete reachable state
in which Alice has recorded the single earning `50`. -/
theorem ledger_totals_invariant_witness :
    alice1.totalEarnings = sumAmounts alice1.earnings ∧
    (alice1.earnings.get ⟨0, by decide⟩).total = sumAmounts (alice1.earnings.take 1) := by
  have hreach : Reachable demoAfter :=
    Reachable.addEarning demoSel "50" "d"
      (Reachable.select (handleAddPlayer ⟨[], none⟩ "Alice").2 alice0
        (Reachable.addPlayer ⟨[], none⟩ "Alice" Reachable.init) (by decide))
  have h := ledger_totals_invariant demoAfter hreach alice1 (by decide)
  exact ⟨h.1, h.2 0 (by decide)⟩

/-- C3 (code bug): after `addPlayer "Alice"`, the call `addPlayer " Alice"`
is accepted — the duplicate check lowercases the *untrimmed* input, which the
leading space makes different from every stored name, while the stored name
is trimmed — so a reachable state holds two players both named `"Alice"`,
violating case-insensitive uniqueness. -/
theorem addPlayer_whitespace_duplicate_bug :
    (handleAddPlayer (handleAddPlayer ⟨[], none⟩ "Alice").2 " Alice").1 = none ∧
    ((handleAddPlayer (handleAddPlayer ⟨[], none⟩ "Alice").2 " Alice").2.players.map
        Player.name) = ["Alice", "Alice"] ∧
    Reachable (handleAddPlayer (handleAddPlayer ⟨[], none⟩ "Alice").2 " Alice").2 :=
  ⟨by decide, by decide,
    Reachable.addPlayer _ " Alice" (Reachable.addPlayer _ "Alice" Reachable.init)⟩

/-- C2 counterexample: `addEarning "1.2.3"` is *accepted* — `parseFloat`
truncates to the numeric prefix `1.2` — and mutates the state; `"Infinity"`
is likewise accepted as a non-finite value. -/
theorem addEarning_accepts_garbage_and_infinity :
    (handleAddEarning demoAlice "1.2.3" "d").1 = none ∧
    (handleAddEarning demoAlice "1.2.3" "d").2 ≠ demoAlice ∧
    parseFloat "1.2.3" = JsVal.fin (6 / 5) ∧
    (handleAddEarning demoAlice "Infinity" "d").1 = none ∧
    parseFloat "Infinity" = JsVal.posInf := by
  decide

/-- C2 (amended): `addEarning` fails, leaving the state unchanged, whenever
the raw amount is empty or has no parseable numeric prefix at all
(`parseFloat` yields NaN) — e.g. `"abc"` and `""`. -/
theorem addEarning_rejects_unparseable (s : State) (raw today : String)
    (h : raw = "" ∨ parseFloat raw = JsVal.nan) :
    (handleAddEarning s raw today).1 ≠ none ∧
    (handleAddEarning s raw today).2 = s := by
  unfold handleAddEarning
  by_cases h1 : raw = ""
  · rw [if_pos h1]
    exact ⟨by simp, rfl⟩
  · rw [if_neg h1]
    rcases h with h | h
    · exact absurd h h1
    · cases s.selectedPlayer with
      | none => exact ⟨by simp, rfl⟩
      | some sel =>
        dsimp only
        rw [if_pos h]
        exact ⟨by simp, rfl⟩

/-- C2 witness: the unparseable amount `"abc"` is rejected on the concrete
one-player state and leaves it unchanged. -/
theorem addEarning_rejects_unparseable_witness :
    (handleAddEarning demoAlice "abc" "d").1 ≠ none ∧
    (handleAddEarning demoAlice "abc" "d").2 = demoAlice :=
  addEarning_rejects_unparseable demoAlice "abc" "d" (Or.inr (by decide))

/-- C7: every validation rejection of either mutation leaves the entire
state — roster, earnings, totals and selection — exactly as it was. -/
theorem validation_failure_frame (s : State) (inp raw today : String) :
    ((handleAddPlayer s inp).1 ≠ none → (handleAddPlayer s inp).2 = s) ∧
    ((handleAddEarning s raw today).1 ≠ none → (handleAddEarning s raw today).2 = s) := by
  constructor
  · unfold handleAddPlayer
    split_ifs
    · intro _
      rfl
    · intro _
      rfl
    · intro h
      exact absurd rfl h
  · unfold handleAddEarning
    by_cases h1 : raw = ""
    · rw [if_pos h1]
      intro _
      rfl
    · rw [if_neg h1]
      cases s.selectedPlayer with
      | none =>
        intro _
        rfl
      | some sel =>
        dsimp only
        by_cases h2 : parseFloat raw = JsVal.nan
        · rw [if_pos h2]
          intro _
          rfl
        · rw [if_neg h2]
          intro h
          exact absurd rfl h

/-- C7 witness: a blank player name and an unparseable amount each leave the
concrete states unchanged. -/
theorem validation_failure_frame_witness :
    (handleAddPlayer ⟨[], none⟩ " ").2 = ⟨[], none⟩ ∧
    (handleAddEarning demoAlice "abc" "d").2 = demoAlice :=
  ⟨(validation_failure_frame ⟨[], none⟩ " " "abc" "d").1 (by decide),
   (validation_failure_frame demoAlice " " "abc" "d").2 (by decide)⟩

/-- C10: a successful `addPlayer` stores the *trimmed* input as the name of
a fresh player with no earnings and zero total, the trimmed input was
non-empty, and no stored name matched the *untrimmed* input
case-insensitively. -/
theorem addPlayer_insert_spec (s : State) (inp : String)
    (hok : (handleAddPlayer s inp).1 = none) :
    (handleAddPlayer s inp).2.players =
      s.players ++ [⟨jsTrim inp, [], JsVal.fin 0⟩] ∧
    jsTrim inp ≠ "" ∧
    ∀ p ∈ s.players, jsToLower p.name ≠ jsToLower inp := by
  unfold handleAddPlayer at hok ⊢
  split_ifs at hok ⊢ with h1 h2
  refine ⟨rfl, h1, ?_⟩
  intro p hp heq
  apply h2
  rw [List.any_eq_true]
  exact ⟨p, hp, by simp [heq]⟩

/-- C10 witness: adding `" Alice "` to the empty dashboard stores the
trimmed name. -/
theorem addPlayer_insert_spec_witness :
    (handleAddPlayer ⟨[], none⟩ " Alice ").2.players =
      [⟨jsTrim " Alice ", [], JsVal.fin 0⟩] ∧
    jsTrim " Alice " ≠ "" := by
  have h := addPlayer_insert_spec ⟨[], none⟩ " Alice " (by decide)
  exact ⟨h.1, h.2.1⟩

/-- C4: a successful `addEarning` with parsed amount `a` appends to the
selected-name player exactly one earning labelled `"Ticket " ++ (n+1)` with
amount `a` and total `t + a`, and sets `totalEarnings` to `t + a`; the
concrete scenario `50` then `-20` on fresh Alice yields
`[("Ticket 1", 50, 50), ("Ticket 2", -20, 30)]` and total `30`. -/
theorem addEarning_effect (s : State) (raw today : String) (sel : Player) (a : JsVal)
    (hsel : s.selectedPlayer = some sel) (hraw : raw ≠ "")
    (ha : parseFloat raw = a) (hna : a ≠ JsVal.nan) :
    (handleAddEarning s raw today).1 = none ∧
    (∀ (i : ℕ) (p : Player), s.players[i]? = some p → p.name = sel.name →
      (handleAddEarning s raw today).2.players[i]? =
        some ⟨p.name,
          p.earnings ++ [⟨"Ticket " ++ toString (p.earnings.length + 1), a,
            p.totalEarnings.add a, today⟩],
          p.totalEarnings.add a⟩) ∧
    demoAlice2.players =
      [⟨"Alice", [⟨"Ticket 1", JsVal.fin 50, JsVal.fin 50, "d1"⟩,
        ⟨"Ticket 2", JsVal.fin (-20), JsVal.fin 30, "d2"⟩], JsVal.fin 30⟩] := by
  subst ha
  unfold handleAddEarning
  rw [if_neg hraw, hsel]
  dsimp only
  rw [if_neg hna]
  refine ⟨rfl, ?_, by decide⟩
  intro i p hip hname
  show (updatePlayers sel.name (parseFloat raw) today s.players)[i]? = _
  rw [updatePlayers, List.getElem?_map, hip]
  simp only [Option.map_some']
  rw [if_pos (show (p.name == sel.name) = true by simp [hname])]
  rfl

/-- C4 witness: the effect theorem instantiated at fresh selected Alice and
the amount string `"50"`. -/
theorem addEarning_effect_witness :
    (handleAddEarning demoAlice "50" "d1").1 = none ∧
    (handleAddEarning demoAlice "50" "d1").2.players[0]? =
      some ⟨"Alice", [⟨"Ticket 1", JsVal.fin 50, JsVal.fin 50, "d1"⟩], JsVal.fin 50⟩ := by
  have h := addEarning_effect demoAlice "50" "d1" alice0 (JsVal.fin 50) rfl
    (by decide) (by decide) (by decide)
  refine ⟨h.1, ?_⟩
  rw [h.2.1 0 alice0 (by decide) rfl]
  decide

/-- C8: a successful `addEarning` leaves every player whose name differs
from the selected player's name exactly as it was. -/
theorem addEarning_other_players_unchanged (s : State) (raw today : String) (sel : Player)
    (hsel : s.selectedPlayer = some sel)
    (hok : (handleAddEarning s raw today).1 = none) :
    ∀ (i : ℕ) (p : Player), s.players[i]? = some p → p.name ≠ sel.name →
      (handleAddEarning s raw today).2.players[i]? = some p := by
  intro i p hip hname
  unfold handleAddEarning at hok ⊢
  by_cases h1 : raw = ""
  · rw [if_pos h1] at hok
    simp at hok
  · rw [if_neg h1] at hok ⊢
    rw [hsel] at hok ⊢
    dsimp only at hok ⊢
    by_cases h2 : parseFloat raw = JsVal.nan
    · rw [if_pos h2] at hok
      simp at hok
    · rw [if_neg h2] at hok ⊢
      show (updatePlayers sel.name (parseFloat raw) today s.players)[i]? = _
      rw [updatePlayers, List.getElem?_map, hip]
      simp only [Option.map_some']
      rw [if_neg (show ¬ (p.name == sel.name) = true by simp [hname])]

/-- C8 witness: Bob (index 1) is untouched when selected Alice records `50`. -/
theorem addEarning_other_players_unchanged_witness :
    (handleAddEarning demoAB "50" "d").2.players[1]? = some bob0 :=
  addEarning_other_players_unchanged demoAB "50" "d" alice0 rfl (by decide)
    1 bob0 (by decide) (by decide)

/-- `find?` by the selected name commutes with `updatePlayers`: the first
match of the rebuilt roster is the updated first match of the old one. -/
theorem find?_updatePlayers (nm : String) (a : JsVal) (d : String) (l : List Player) :
    (updatePlayers nm a d l).find? (fun p => p.name == nm) =
      (l.find? fun p => p.name == nm).map (applyEarning a d) := by
  induction l with
  | nil => rfl
  | cons q l ih =>
    rw [updatePlayers, List.map_cons]
    by_cases hq : (q.name == nm) = true
    · rw [if_pos hq]
      have hq2 : ((applyEarning a d q).name == nm) = true := hq
      simp only [List.find?_cons, hq, hq2, Option.map_some']
    · rw [if_neg hq]
      have hqf : (q.name == nm) = false := by simpa using hq
      simp only [List.find?_cons, hqf]
      exact ih

/-- After a successful `addEarning`, the stored selection is the first
rebuilt-roster player carrying the selected name. -/
theorem handleAddEarning_selectedPlayer (s : State) (raw today : String) (sel : Player)
    (hsel : s.selectedPlayer = some sel) (hraw : raw ≠ "")
    (hna : parseFloat raw ≠ JsVal.nan) :
    (handleAddEarning s raw today).2.selectedPlayer =
      (s.players.find? fun q => q.name == sel.name).map
        (applyEarning (parseFloat raw) today) := by
  unfold handleAddEarning
  rw [if_neg hraw, hsel]
  dsimp only
  rw [if_neg hna]
  show (updatePlayers sel.name (parseFloat raw) today s.players).find?
      (fun p => p.name == sel.name) = _
  rw [find?_updatePlayers]

/-- C9: after a successful `addEarning`, the selection is re-resolved by
name against the rebuilt roster: it becomes the updated record of the first
pre-mutation player with the selected name — carrying the appended earning,
never the stale record — and it becomes empty when no such player exists. -/
theorem addEarning_selection_reresolved (s : State) (raw today : String)
    (sel : Player) (a : JsVal)
    (hsel : s.selectedPlayer = some sel) (hraw : raw ≠ "")
    (ha : parseFloat raw = a) (hna : a ≠ JsVal.nan) :
    ((s.players.find? fun q => q.name == sel.name) = none →
      (handleAddEarning s raw today).2.selectedPlayer = none) ∧
    (∀ p, (s.players.find? fun q => q.name == sel.name) = some p →
      (handleAddEarning s raw today).2.selectedPlayer =
        some ⟨p.name,
          p.earnings ++ [⟨"Ticket " ++ toString (p.earnings.length + 1), a,
            p.totalEarnings.add a, today⟩],
          p.totalEarnings.add a⟩) ∧
    ∀ p, (s.players.find? fun q => q.name == sel.name) = some p →
      (handleAddEarning s raw today).2.selectedPlayer ≠ some p := by
  subst ha
  have hs := handleAddEarning_selectedPlayer s raw today sel hsel hraw hna
  refine ⟨?_, ?_, ?_⟩
  · intro hnone
    rw [hs, hnone]
    rfl
  · intro p hp
    rw [hs, hp]
    rfl
  · intro p hp hcontra
    rw [hs, hp] at hcontra
    simp only [Option.map_some'] at hcontra
    have h2 := Option.some.inj hcontra
    have h3 := congrArg (fun q => q.earnings.length) h2
    simp [applyEarning] at h3

/-- C9 witness: on the concrete two-player state the selection becomes the
updated Alice, not the stale record. -/
theorem addEarning_selection_reresolved_witness :
    (handleAddEarning demoAB "50" "d").2.selectedPlayer =
      some ⟨"Alice", [⟨"Ticket 1", JsVal.fin 50, JsVal.fin 50, "d"⟩], JsVal.fin 50⟩ ∧
    (handleAddEarning demoAB "50" "d").2.selectedPlayer ≠ some alice0 := by
  have h := addEarning_selection_reresolved demoAB "50" "d" alice0 (JsVal.fin 50)
    rfl (by decide) (by decide) (by decide)
  constructor
  · rw [h.2.1 alice0 (by decide)]
    decide
  · exact h.2.2 alice0 (by decide)

/-- C6: the aggregate stats count the players, sum every player's
`totalEarnings`, count the strictly profitable players, and report
`winRate = round(100 * profitable / total)` for a non-empty roster and `0`
for an empty one; with 3 players of which 1 is profitable the rate is 33. -/
theorem aggregateStats_spec (players : List Player) :
    (aggregateStats players).totalPlayers = players.length ∧
    (aggregateStats players).totalWinnings =
      (players.map Player.totalEarnings).foldl JsVal.add (JsVal.fin 0) ∧
    (aggregateStats players).profitablePlayers =
      players.countP (fun p => p.totalEarnings.gtZero) ∧
    (aggregateStats players).winRate =
      (if 0 < players.length then
        jsRound (100 * (players.countP fun p => p.totalEarnings.gtZero : ℚ) /
          (players.length : ℚ))
      else 0) ∧
    (aggregateStats demo3).winRate = 33 ∧
    (aggregateStats []).winRate = 0 := by
  refine ⟨rfl, ?_, ?_, ?_, by decide, by decide⟩
  · rw [List.foldl_map]
    rfl
  · rw [List.countP_eq_length_filter]
    rfl
  · show (if 0 < players.length then
        jsRound (((players.filter fun p => p.totalEarnings.gtZero).length : ℚ) /
          (players.length : ℚ) * 100)
      else 0) = _
    rw [List.countP_eq_length_filter]
    by_cases h : 0 < players.length
    · rw [if_pos h, if_pos h]
      congr 1
      ring
    · rw [if_neg h, if_neg h]

/-- Membership in a JS-`Set`-style insertion. -/
theorem mem_insertLabel (acc : List String) (x y : String) :
    y ∈ insertLabel acc x ↔ y ∈ acc ∨ y = x := by
  unfold insertLabel
  split_ifs with h
  · constructor
    · exact Or.inl
    · rintro (hy | rfl)
      · exact hy
      · exact h
  · simp [List.mem_append]

/-- JS-`Set`-style insertion keeps the collection duplicate-free. -/
theorem nodup_insertLabel (acc : List String) (x : String) (h : acc.Nodup) :
    (insertLabel acc x).Nodup := by
  unfold insertLabel
  split_ifs with hx
  · exact h
  · simp [List.nodup_append, h, hx]

/-- Membership after folding a whole list of labels into the accumulator. -/
theorem mem_foldl_insertLabel (l : List String) :
    ∀ acc y, y ∈ l.foldl insertLabel acc ↔ y ∈ acc ∨ y ∈ l := by
  induction l with
  | nil =>
    intro acc y
    simp
  | cons x l ih =>
    intro acc y
    rw [List.foldl_cons, ih, mem_insertLabel]
    simp [List.mem_cons, or_assoc]

/-- Folding labels into a duplicate-free accumulator keeps it so. -/
theorem nodup_foldl_insertLabel (l : List String) :
    ∀ acc, acc.Nodup → (l.foldl insertLabel acc).Nodup := by
  induction l with
  | nil =>
    intro acc h
    exact h
  | cons x l ih =>
    intro acc h
    exact ih _ (nodup_insertLabel _ _ h)

/-- A label is collected by `allMatches` exactly when some player has an
earning carrying it. -/
theorem mem_allMatches (players : List Player) (lbl : String) :
    lbl ∈ allMatches players ↔
      ∃ p ∈ players, ∃ e ∈ p.earnings, e.matchLabel = lbl := by
  rw [allMatches, mem_foldl_insertLabel]
  simp [List.mem_flatMap, List.mem_map, eq_comm]

/-- `allMatches` never lists the same label twice. -/
theorem nodup_allMatches (players : List Player) : (allMatches players).Nodup :=
  nodup_foldl_insertLabel _ _ List.nodup_nil

/-- C5: `generateAllPlayersData` has one row per distinct `match` label
occurring in any player's earnings, rows ordered lexicographically by label;
in each row a player's value is the `total` of that player's earning
carrying that exact label when one exists, and the explicit no-data marker
(`none`, the source's `null`) otherwise. -/
theorem generateAllPlayersData_spec (players : List Player) :
    ((generateAllPlayersData players).map DataPoint.matchLabel).Sorted (· ≤ ·) ∧
    ((generateAllPlayersData players).map DataPoint.matchLabel).Nodup ∧
    (∀ lbl, lbl ∈ (generateAllPlayersData players).map DataPoint.matchLabel ↔
      ∃ p ∈ players, ∃ e ∈ p.earnings, e.matchLabel = lbl) ∧
    ∀ dp ∈ generateAllPlayersData players, ∀ p ∈ players,
      ((∃ e ∈ p.earnings, e.matchLabel = dp.matchLabel) →
        ∃ e ∈ p.earnings, e.matchLabel = dp.matchLabel ∧
          (p.name, some e.total) ∈ dp.values) ∧
      ((∀ e ∈ p.earnings, e.matchLabel ≠ dp.matchLabel) →
        (p.name, (none : Option JsVal)) ∈ dp.values) := by
  have hlab : (generateAllPlayersData players).map DataPoint.matchLabel =
      List.insertionSort (fun a b => strLe a b = true) (allMatches players) := by
    unfold generateAllPlayersData
    rw [List.map_map]
    exact List.map_id'' (fun x => rfl) _
  refine ⟨?_, ?_, ?_, ?_⟩
  · rw [hlab]
    have hsorted := List.sorted_insertionSort
      (fun a b => strLe a b = true) (allMatches players)
    exact hsorted.imp fun h => (strLe_iff_le _ _).1 h
  · rw [hlab]
    exact ((List.perm_insertionSort _ _).nodup_iff).2 (nodup_allMatches players)
  · intro lbl
    rw [hlab, (List.perm_insertionSort _ _).mem_iff, mem_allMatches]
  · intro dp hdp p hp
    unfold generateAllPlayersData at hdp
    obtain ⟨m, hm, rfl⟩ := List.mem_map.1 hdp
    constructor
    · rintro ⟨e, he, helbl⟩
      have hsome : (p.earnings.find? fun e => e.matchLabel == m).isSome :=
        List.find?_isSome.2 ⟨e, he, by simp [helbl]⟩
      obtain ⟨e₀, he₀⟩ := Option.isSome_iff_exists.1 hsome
      have hmem := List.mem_map_of_mem
        (fun player => (player.name,
          (player.earnings.find? fun e => e.matchLabel == m).map Earning.total)) hp
      simp only [he₀, Option.map_some'] at hmem
      exact ⟨e₀, List.mem_of_find?_eq_some he₀,
        by simpa using List.find?_some he₀, hmem⟩
    · intro hall
      have hnone : (p.earnings.find? fun e => e.matchLabel == m) = none :=
        List.find?_eq_none.2 fun e he => by simp [hall e he]
      have hmem := List.mem_map_of_mem
        (fun player => (player.name,
          (player.earnings.find? fun e => e.matchLabel == m).map Earning.total)) hp
      simp only [hnone, Option.map_none'] at hmem
      exact hmem

end Proofs
